import Mathlib

/-!
Verification development for the ExtraCompiler / ProcessExtraCompiler
orchestration engine of the `projectexplorer` plugin (extracompiler.cpp).

The C++ classes are shallowly embedded as pure Lean functions over an
explicit state record:

* `FileNameToContentsHash` — the QHash from target path to generated bytes,
  embedded as an association list with unique keys (QHash insert/find
  semantics are reproduced by `hashInsert`/`hashLookup`/`hashUpdate`).
* `ECState` — the fields of `ExtraCompilerPrivate` that the control logic
  reads and writes: the content cache, the `compileTime` watermark, the
  `dirty` flag, the bound editor (`lastEditor`) and the debounce timer
  deadline.
* QDateTime values are `Option Nat`: `none` is an invalid datetime, and the
  comparison operators treat an invalid datetime as strictly earlier than
  every valid one (Qt stores invalid datetimes with a zero msecs value, so
  this matches the comparisons performed by the code for positive stamps).
* Signal emission (`contentsChanged`) and run triggering (`run(bytes)` /
  `run(path)`) are made observable by returning `List Event` and
  `Option RunReq` values alongside the successor state.
* The filesystem is a function `FS` from paths to optional (mtime, content)
  records; a file that exists is readable, and a failed `QFile::open` is a
  missing file.
-/

namespace ProjectExplorer

/-- Path of a file (Utils::FilePath). -/
abbrev FilePath := String

/-- A QByteArray that is known to be non-null: a list of bytes. -/
abbrev ByteArr := List Nat

/-- A possibly-null QByteArray (`none` is the null array). -/
abbrev ByteArrN := Option ByteArr

/-- On-disk file: modification time and content. -/
structure FSFile where
  mtime : Nat
  content : ByteArr
deriving DecidableEq

/-- Filesystem snapshot: which files exist, with what stamp and content. -/
abbrev FS := FilePath → Option FSFile

/-- QHash<FilePath, QByteArray> embedded as an association list. -/
abbrev FileNameToContentsHash := List (FilePath × ByteArr)

/-- Keys of the hash, in insertion order. -/
def hashKeys (h : FileNameToContentsHash) : List FilePath :=
  h.map Prod.fst

/-- QHash::find / value: the value stored for a key, if present. -/
def hashLookup (h : FileNameToContentsHash) (k : FilePath) : Option ByteArr :=
  match h with
  | [] => none
  | p :: rest => if p.1 = k then some p.2 else hashLookup rest k

/-- QHash::contains. -/
def hashContains (h : FileNameToContentsHash) (k : FilePath) : Bool :=
  match h with
  | [] => false
  | p :: rest => if p.1 = k then true else hashContains rest k

/-- Overwrite the value stored for an existing key. -/
def hashUpdate (h : FileNameToContentsHash) (k : FilePath) (v : ByteArr) :
    FileNameToContentsHash :=
  match h with
  | [] => []
  | p :: rest =>
    if p.1 = k then (k, v) :: hashUpdate rest k v else p :: hashUpdate rest k v

/-- QHash::insert: overwrite if the key exists, append otherwise. -/
def hashInsert (h : FileNameToContentsHash) (k : FilePath) (v : ByteArr) :
    FileNameToContentsHash :=
  if hashContains h k then hashUpdate h k v else h ++ [(k, v)]

/-- QDateTime operator<: an invalid datetime is earlier than any valid one. -/
def qdtLT : Option Nat → Option Nat → Bool
  | none, none => false
  | none, some _ => true
  | some _, none => false
  | some a, some b => decide (a < b)

/-- QDateTime operator<=, derived from `qdtLT` by totality of the order. -/
def qdtLE (a b : Option Nat) : Bool :=
  !(qdtLT b a)

/-- Observable signals the engine emits towards dependents. -/
inductive Event
  | contentsChanged (file : FilePath)
deriving DecidableEq

/-- A run request: `run(const QByteArray &)` or `run(const FilePath &)`. -/
inductive RunReq
  | bytes (b : ByteArr)
  | path (f : FilePath)
deriving DecidableEq

/-- The mutable fields of ExtraCompilerPrivate used by the control logic.
`deadline` is the absolute expiry instant of the single-shot debounce
timer (`none` when the timer is not running), and `lastEditor` holds the
identity of the bound editor. -/
structure ECState where
  contents : FileNameToContentsHash
  compileTime : Option Nat
  dirty : Bool
  lastEditor : Option Nat
  deadline : Option Nat
deriving DecidableEq

/-- ExtraCompiler::setContent: replace the cached bytes for a declared
target only when they differ, emitting `contentsChanged` on a change; a
path that is not a key of the hash is ignored. -/
def setContent (s : ECState) (file : FilePath) (bytes : ByteArr) :
    ECState × List Event :=
  match hashLookup s.contents file with
  | none => (s, [])
  | some cur =>
    if cur = bytes then (s, [])
    else ({ s with contents := hashUpdate s.contents file bytes },
          [Event.contentsChanged file])

theorem hashKeys_hashUpdate (h : FileNameToContentsHash) (k : FilePath)
    (v : ByteArr) : hashKeys (hashUpdate h k v) = hashKeys h := by
  induction h with
  | nil => rfl
  | cons p rest ih =>
    by_cases hk : p.1 = k <;> simp [hashUpdate, hashKeys, hk] at ih ⊢ <;>
      simpa [hashKeys] using ih

theorem hashLookup_hashUpdate_self (h : FileNameToContentsHash) (k : FilePath)
    (v : ByteArr) (hc : hashContains h k = true) :
    hashLookup (hashUpdate h k v) k = some v := by
  induction h with
  | nil => simp [hashContains] at hc
  | cons p rest ih =>
    by_cases hk : p.1 = k
    · simp [hashUpdate, hashLookup, hk]
    · simp [hashContains, hk] at hc
      simp [hashUpdate, hashLookup, hk, ih hc]

theorem hashLookup_hashUpdate_ne (h : FileNameToContentsHash) (k g : FilePath)
    (v : ByteArr) (hne : g ≠ k) :
    hashLookup (hashUpdate h k v) g = hashLookup h g := by
  induction h with
  | nil => rfl
  | cons p rest ih =>
    by_cases hk : p.1 = k
    · have : ¬ (k = g) := fun e => hne e.symm
      simp [hashUpdate, hashLookup, hk, this, ih]
    · simp [hashUpdate, hashLookup, hk, ih]

theorem hashContains_iff_lookup (h : FileNameToContentsHash) (k : FilePath) :
    hashContains h k = true ↔ ∃ v, hashLookup h k = some v := by
  induction h with
  | nil => simp [hashContains, hashLookup]
  | cons p rest ih =>
    by_cases hk : p.1 = k <;> simp [hashContains, hashLookup, hk, ih]

theorem hashContains_iff_mem_keys (h : FileNameToContentsHash) (k : FilePath) :
    hashContains h k = true ↔ k ∈ hashKeys h := by
  induction h with
  | nil => simp [hashContains, hashKeys]
  | cons p rest ih =>
    by_cases hk : p.1 = k
    · simp [hashContains, hashKeys, hk]
    · have h1 : hashContains (p :: rest) k = hashContains rest k := by
        simp [hashContains, hk]
      have h2 : hashKeys (p :: rest) = p.1 :: hashKeys rest := rfl
      rw [h1, h2, ih]
      constructor
      · exact fun m => List.mem_cons_of_mem _ m
      · intro m
        rcases List.mem_cons.mp m with e | m2
        · exact absurd e.symm hk
        · exact m2

theorem setContent_keys (s : ECState) (f : FilePath) (b : ByteArr) :
    hashKeys (setContent s f b).1.contents = hashKeys s.contents := by
  unfold setContent
  cases hl : hashLookup s.contents f with
  | none => rfl
  | some cur =>
    by_cases he : cur = b
    · simp [he]
    · simp [he, hashKeys_hashUpdate]

theorem setContent_lookup_self (s : ECState) (f : FilePath) (b cur : ByteArr)
    (hl : hashLookup s.contents f = some cur) :
    hashLookup (setContent s f b).1.contents f = some b := by
  unfold setContent
  rw [hl]
  by_cases he : cur = b
  · subst he
    simp [hl]
  · have hc : hashContains s.contents f = true :=
      (hashContains_iff_lookup s.contents f).mpr ⟨cur, hl⟩
    simp [he, hashLookup_hashUpdate_self s.contents f b hc]

theorem setContent_lookup_ne (s : ECState) (f g : FilePath) (b : ByteArr)
    (hne : g ≠ f) :
    hashLookup (setContent s f b).1.contents g = hashLookup s.contents g := by
  unfold setContent
  cases hl : hashLookup s.contents f with
  | none => rfl
  | some cur =>
    by_cases he : cur = b
    · simp [he]
    · simp [he, hashLookup_hashUpdate_ne s.contents f g b hne]

theorem setContent_fields (s : ECState) (f : FilePath) (b : ByteArr) :
    (setContent s f b).1.compileTime = s.compileTime
    ∧ (setContent s f b).1.dirty = s.dirty
    ∧ (setContent s f b).1.lastEditor = s.lastEditor
    ∧ (setContent s f b).1.deadline = s.deadline := by
  unfold setContent
  cases hl : hashLookup s.contents f with
  | none => exact ⟨rfl, rfl, rfl, rfl⟩
  | some cur =>
    by_cases he : cur = b <;> simp [he]

theorem setContent_undeclared (s : ECState) (f : FilePath) (b : ByteArr)
    (h : hashLookup s.contents f = none) : setContent s f b = (s, []) := by
  unfold setContent
  rw [h]

theorem setContent_noop (s : ECState) (f : FilePath) (b : ByteArr)
    (h : hashLookup s.contents f = some b) : setContent s f b = (s, []) := by
  unfold setContent
  rw [h]
  simp

/-- C5: for a declared target, `setContent` replaces the cache and emits the
content-changed notification exactly when the bytes differ from the current
cache; a byte-identical call leaves the state untouched, and a second call
with the same bytes is always a silent no-op, the cache being equal to the
installed bytes after the first call. -/
theorem setContent_change_detecting (s : ECState) (f : FilePath)
    (b cur : ByteArr) (hdecl : hashLookup s.contents f = some cur) :
    (cur ≠ b →
      setContent s f b =
        ({ s with contents := hashUpdate s.contents f b },
         [Event.contentsChanged f]))
    ∧ (cur = b → setContent s f b = (s, []))
    ∧ ((setContent s f b).2 ≠ [] ↔ cur ≠ b)
    ∧ hashLookup (setContent s f b).1.contents f = some b
    ∧ setContent (setContent s f b).1 f b = ((setContent s f b).1, []) := by
  refine ⟨?_, ?_, ?_, ?_, ?_⟩
  · intro hne
    unfold setContent
    rw [hdecl]
    simp [hne]
  · intro he
    unfold setContent
    rw [hdecl]
    simp [he]
  · constructor
    · intro hne he
      unfold setContent at hne
      rw [hdecl] at hne
      simp [he] at hne
    · intro hne
      unfold setContent
      rw [hdecl]
      simp [hne]
  · exact setContent_lookup_self s f b cur hdecl
  · exact setContent_noop (setContent s f b).1 f b
      (setContent_lookup_self s f b cur hdecl)

/-- C5 witness: a concrete instance with one declared target. -/
theorem setContent_change_detecting_witness :
    hashLookup ({ contents := [("t", [7])], compileTime := none,
                  dirty := false, lastEditor := none,
                  deadline := none : ECState }).contents "t" = some [7]
    ∧ (setContent { contents := [("t", [7])], compileTime := none,
                    dirty := false, lastEditor := none,
                    deadline := none : ECState } "t" [9]).2 ≠ [] := by
  refine ⟨by decide, ?_⟩
  have h := setContent_change_detecting
    { contents := [("t", [7])], compileTime := none, dirty := false,
      lastEditor := none, deadline := none : ECState } "t" [9] [7] (by decide)
  exact h.2.2.1.mpr (by decide)

/-- Install a batch of results through `setContent`, accumulating the
emitted notifications (the loop body of ProcessExtraCompiler::cleanUp). -/
def setContentAll (s : ECState) (evs : List Event) :
    List (FilePath × ByteArr) → ECState × List Event
  | [] => (s, evs)
  | p :: rest =>
    setContentAll (setContent s p.1 p.2).1 (evs ++ (setContent s p.1 p.2).2)
      rest

/-- ProcessExtraCompiler::cleanUp, applied to the delivered future result:
`none` models a future with no reported result (resultCount == 0); an empty
hash is the error marker. On a non-empty result every pair is installed via
`setContent` and the watermark is set to the current time. -/
def cleanUp (s : ECState) (result : Option FileNameToContentsHash)
    (now : Nat) : ECState × List Event :=
  match result with
  | none => (s, [])
  | some data =>
    if data.isEmpty then (s, [])
    else
      let r := setContentAll s [] data
      ({ r.1 with compileTime := some now }, r.2)

theorem setContentAll_keys (data : List (FilePath × ByteArr)) (s : ECState)
    (evs : List Event) :
    hashKeys (setContentAll s evs data).1.contents = hashKeys s.contents := by
  induction data generalizing s evs with
  | nil => rfl
  | cons p rest ih =>
    rw [setContentAll, ih, setContent_keys]

theorem setContentAll_lookup_notmem (data : List (FilePath × ByteArr))
    (s : ECState) (evs : List Event) (f : FilePath)
    (hout : f ∉ data.map Prod.fst) :
    hashLookup (setContentAll s evs data).1.contents f =
      hashLookup s.contents f := by
  induction data generalizing s evs with
  | nil => rfl
  | cons p rest ih =>
    simp only [List.map_cons, List.mem_cons] at hout
    push_neg at hout
    rw [setContentAll, ih _ _ hout.2,
      setContent_lookup_ne s p.1 f p.2 hout.1]

theorem setContentAll_lookup_last (pre post : List (FilePath × ByteArr))
    (s : ECState) (evs : List Event) (f : FilePath) (b : ByteArr)
    (hc : hashContains s.contents f = true)
    (hpost : f ∉ post.map Prod.fst) :
    hashLookup (setContentAll s evs (pre ++ (f, b) :: post)).1.contents f =
      some b := by
  induction pre generalizing s evs with
  | nil =>
    obtain ⟨cur, hcur⟩ := (hashContains_iff_lookup s.contents f).mp hc
    rw [List.nil_append, setContentAll,
      setContentAll_lookup_notmem post _ _ f hpost]
    exact setContent_lookup_self s f b cur hcur
  | cons q rest ih =>
    rw [List.cons_append, setContentAll]
    refine ih _ _ ?_
    rw [(hashContains_iff_mem_keys _ f), setContent_keys,
      ← (hashContains_iff_mem_keys _ f)]
    exact hc

theorem setContentAll_compileTime (data : List (FilePath × ByteArr))
    (s : ECState) (evs : List Event) :
    (setContentAll s evs data).1.compileTime = s.compileTime := by
  induction data generalizing s evs with
  | nil => rfl
  | cons p rest ih =>
    rw [setContentAll, ih, (setContent_fields s p.1 p.2).1]

/-- C2: a run delivering no result, or an empty result set, leaves the whole
state (every target's cached content and the watermark) unchanged; a
non-empty result set advances the watermark to the current time, installs
the last reported content of each returned target, and leaves every target
that is not part of the result set untouched. -/
theorem cleanUp_fail_soft (s : ECState) (now : Nat)
    (data pre post : List (FilePath × ByteArr)) (f g : FilePath) (b : ByteArr)
    (hne : data ≠ [])
    (hsplit : data = pre ++ (f, b) :: post)
    (hdecl : hashContains s.contents f = true)
    (hlast : f ∉ post.map Prod.fst)
    (hout : g ∉ data.map Prod.fst) :
    cleanUp s none now = (s, [])
    ∧ cleanUp s (some []) now = (s, [])
    ∧ (cleanUp s (some data) now).1.compileTime = some now
    ∧ hashLookup (cleanUp s (some data) now).1.contents f = some b
    ∧ hashLookup (cleanUp s (some data) now).1.contents g =
        hashLookup s.contents g := by
  have hemp : data.isEmpty = false := by
    cases data with
    | nil => exact absurd rfl hne
    | cons p rest => rfl
  refine ⟨rfl, rfl, ?_, ?_, ?_⟩
  · simp [cleanUp, hemp]
  · simp only [cleanUp, hemp, Bool.false_eq_true, if_false]
    rw [hsplit]
    exact setContentAll_lookup_last pre post s [] f b hdecl hlast
  · simp only [cleanUp, hemp, Bool.false_eq_true, if_false]
    exact setContentAll_lookup_notmem data s [] g hout

/-- C2 witness: one declared target adopted from a singleton result set, an
undeclared-path lookup left alone. -/
theorem cleanUp_fail_soft_witness :
    (cleanUp { contents := [("t", [1]), ("u", [2])], compileTime := some 3,
               dirty := false, lastEditor := none,
               deadline := none : ECState }
        (some [("t", [9])]) 7).1.compileTime = some 7 := by
  have h := cleanUp_fail_soft
    { contents := [("t", [1]), ("u", [2])], compileTime := some 3,
      dirty := false, lastEditor := none, deadline := none : ECState }
    7 [("t", [9])] [] [] "t" "u" [9] (by decide) rfl (by decide) (by decide)
    (by decide)
  exact h.2.2.1

/-- Resolved command path of the external generator, a FilePath plus
whether the file it denotes is executable (QFileInfo::isExecutable). -/
structure Cmd where
  path : FilePath
  executable : Bool
deriving DecidableEq

/-- Behaviour of the external process once spawned: either it fails to
start, or it finishes and `handleProcessFinished` maps its output to a
target-to-content hash. -/
inductive ProcOutcome
  | startFailed
  | finished (data : FileNameToContentsHash)
deriving DecidableEq

/-- ProcessExtraCompiler::runInThread. The deferred content provider has
already been evaluated to `providerResult` (`none` is a null QByteArray);
`process` describes what the spawned process would do on the source bytes,
`canceled` whether the future was cancelled while the process ran. The
return value is the reported result: `none` when nothing is reported. -/
def runInThread (cmd : Cmd) (providerResult : ByteArrN)
    (prepareToRun : ByteArr → Bool) (canceled : Bool)
    (process : ByteArr → ProcOutcome) : Option FileNameToContentsHash :=
  if cmd.path = "" || !cmd.executable then none
  else
    match providerResult with
    | none => none
    | some sourceContents =>
      if !prepareToRun sourceContents then none
      else
        match process sourceContents with
        | ProcOutcome.startFailed => none
        | ProcOutcome.finished data => if canceled then none else some data

/-- Content provider built by ProcessExtraCompiler::run(const FilePath &):
read the file at execution time, yielding the null array when the file
cannot be opened for reading. -/
def fileContentProvider (fs : FS) (fileName : FilePath) : ByteArrN :=
  match fs fileName with
  | none => none
  | some fi => some fi.content

/-- C8: a worker run whose command path is empty or not executable, whose
content provider yields the null array, or whose pre-run validator rejects
the source, reports no result and never consults the process behaviour (no
process is spawned), so adopting its completion leaves all cached contents
and the watermark unchanged. -/
theorem runInThread_precondition_abort (cmd : Cmd) (pr : ByteArrN)
    (prep : ByteArr → Bool) (canceled : Bool)
    (process altProcess : ByteArr → ProcOutcome) (s : ECState) (now : Nat)
    (h : cmd.path = "" ∨ cmd.executable = false ∨ pr = none
         ∨ (∃ src, pr = some src ∧ prep src = false)) :
    runInThread cmd pr prep canceled process = none
    ∧ runInThread cmd pr prep canceled process =
        runInThread cmd pr prep canceled altProcess
    ∧ cleanUp s (runInThread cmd pr prep canceled process) now = (s, []) := by
  have hnone : runInThread cmd pr prep canceled process = none := by
    unfold runInThread
    rcases h with hp | hx | hn | ⟨src, hsrc, hrej⟩
    · simp [hp]
    · simp [hx]
    · simp [hn]
    · by_cases hcmd : cmd.path = "" || !cmd.executable
      · simp [hcmd]
      · simp [hcmd, hsrc, hrej]
  have hnone2 : runInThread cmd pr prep canceled altProcess = none := by
    unfold runInThread
    rcases h with hp | hx | hn | ⟨src, hsrc, hrej⟩
    · simp [hp]
    · simp [hx]
    · simp [hn]
    · by_cases hcmd : cmd.path = "" || !cmd.executable
      · simp [hcmd]
      · simp [hcmd, hsrc, hrej]
  refine ⟨hnone, by rw [hnone, hnone2], ?_⟩
  rw [hnone]
  rfl

/-- C8 witness: a non-executable command aborts and changes nothing. -/
theorem runInThread_precondition_abort_witness :
    runInThread { path := "gen", executable := false } (some [1])
      (fun _ => true) false (fun _ => ProcOutcome.finished [("t", [2])])
      = none := by
  have h := runInThread_precondition_abort
    { path := "gen", executable := false } (some [1]) (fun _ => true) false
    (fun _ => ProcOutcome.finished [("t", [2])])
    (fun _ => ProcOutcome.startFailed)
    { contents := [], compileTime := none, dirty := false,
      lastEditor := none, deadline := none : ECState } 0
    (Or.inr (Or.inl rfl))
  exact h.1

/-- C10: a run started through the file-path entry point whose file cannot
be opened when the provider is evaluated on the worker thread yields the
null array, so the worker aborts before spawning any process (the outcome
is independent of the process behaviour) and the adopted completion leaves
cached contents and the watermark unchanged. -/
theorem run_file_open_failure (fs : FS) (fileName : FilePath) (cmd : Cmd)
    (prep : ByteArr → Bool) (canceled : Bool)
    (process altProcess : ByteArr → ProcOutcome) (s : ECState) (now : Nat)
    (hopen : fs fileName = none) :
    fileContentProvider fs fileName = none
    ∧ runInThread cmd (fileContentProvider fs fileName) prep canceled process
        = none
    ∧ runInThread cmd (fileContentProvider fs fileName) prep canceled process
        = runInThread cmd (fileContentProvider fs fileName) prep canceled
            altProcess
    ∧ cleanUp s
        (runInThread cmd (fileContentProvider fs fileName) prep canceled
          process) now = (s, []) := by
  have hp : fileContentProvider fs fileName = none := by
    unfold fileContentProvider
    rw [hopen]
  have h := runInThread_precondition_abort cmd (fileContentProvider fs fileName)
    prep canceled process altProcess s now (Or.inr (Or.inr (Or.inl hp)))
  exact ⟨hp, h.1, h.2.1, h.2.2⟩

/-- C10 witness: an absent source file on a concrete filesystem. -/
theorem run_file_open_failure_witness :
    fileContentProvider (fun _ => none) "missing" = none := by
  have h := run_file_open_failure (fun _ => none) "missing"
    { path := "gen", executable := true } (fun _ => true) false
    (fun _ => ProcOutcome.finished [("t", [2])])
    (fun _ => ProcOutcome.startFailed)
    { contents := [], compileTime := none, dirty := false,
      lastEditor := none, deadline := none : ECState } 0 rfl
  exact h.1

/-- ExtraCompiler::setDirty, invoked at instant `t` by a contentsChanged
notification of the bound document: set the dirty flag and restart the
single-shot 1000ms debounce timer. -/
def setDirty (s : ECState) (t : Nat) : ECState :=
  { s with dirty := true, deadline := some (t + 1000) }

/-- The timer-timeout lambda installed in the ExtraCompiler constructor,
observed at instant `t`: the single-shot timer fires only at its deadline;
if the dirty flag is set and an editor is bound, clear the flag and run
against the document contents read at that moment (`doc t`). -/
def timerTimeout (s : ECState) (t : Nat) (doc : Nat → ByteArr) :
    ECState × Option RunReq :=
  if s.deadline = some t then
    if s.dirty && s.lastEditor.isSome then
      ({ s with dirty := false, deadline := none },
       some (RunReq.bytes (doc t)))
    else ({ s with deadline := none }, none)
  else (s, none)

/-- ExtraCompiler::onEditorChanged: if an editor was bound and the dirty
flag is set, run against the outgoing document's current contents and clear
the flag; then bind the new editor exactly when its document path is the
governed source, else clear the binding. `newEditor` carries the editor's
identity and its document's path. -/
def onEditorChanged (s : ECState) (oldDocContents : ByteArr)
    (newEditor : Option (Nat × FilePath)) (source : FilePath) :
    ECState × Option RunReq :=
  let r : ECState × Option RunReq :=
    if s.lastEditor.isSome then
      if s.dirty then ({ s with dirty := false },
                       some (RunReq.bytes oldDocContents))
      else (s, none)
    else (s, none)
  match newEditor with
  | some ed =>
    if ed.2 = source then ({ r.1 with lastEditor := some ed.1 }, r.2)
    else ({ r.1 with lastEditor := none }, r.2)
  | none => ({ r.1 with lastEditor := none }, r.2)

/-- ExtraCompiler::onEditorAboutToClose: ignore editors other than the
bound one; otherwise run against the closing document's contents when the
dirty flag is set, then clear the binding. -/
def onEditorAboutToClose (s : ECState) (editor : Nat)
    (docContents : ByteArr) : ECState × Option RunReq :=
  if s.lastEditor ≠ some editor then (s, none)
  else
    let r : ECState × Option RunReq :=
      if s.dirty then ({ s with dirty := false },
                       some (RunReq.bytes docContents))
      else (s, none)
    ({ r.1 with lastEditor := none }, r.2)

/-- C6: a document edit at instant `t0` sets the dirty flag and restarts
the debounce deadline to `t0 + 1000`; the timeout produces a run only at
the deadline with the dirty flag still set and an editor still bound, and
that run uses the buffer snapshot taken at expiry time; a second edit at
`t1` supersedes the first deadline, so no run fires at any instant before
`t1 + 1000`. -/
theorem debounce_contract (s : ECState) (t0 t1 t : Nat)
    (doc : Nat → ByteArr) (hlt : t < t1 + 1000) :
    (setDirty s t0).dirty = true
    ∧ (setDirty s t0).deadline = some (t0 + 1000)
    ∧ ((timerTimeout s t doc).2 ≠ none →
        s.deadline = some t ∧ s.dirty = true ∧ s.lastEditor.isSome = true
        ∧ (timerTimeout s t doc).2 = some (RunReq.bytes (doc t)))
    ∧ (timerTimeout (setDirty (setDirty s t0) t1) t doc).2 = none := by
  refine ⟨rfl, rfl, ?_, ?_⟩
  · intro hfire
    by_cases hd : s.deadline = some t
    · by_cases hrun : s.dirty && s.lastEditor.isSome
      · have h1 : s.dirty = true := (Bool.and_eq_true _ _).mp hrun |>.1
        have h2 : s.lastEditor.isSome = true :=
          (Bool.and_eq_true _ _).mp hrun |>.2
        refine ⟨hd, h1, h2, ?_⟩
        unfold timerTimeout
        simp [hd, hrun]
      · exfalso
        unfold timerTimeout at hfire
        simp [hd, hrun] at hfire
    · exfalso
      unfold timerTimeout at hfire
      simp [hd] at hfire
  · unfold timerTimeout
    have hd : (setDirty (setDirty s t0) t1).deadline = some (t1 + 1000) := rfl
    rw [hd]
    have hne : ¬ (some (t1 + 1000) = some t) := by
      intro he
      exact absurd (Option.some.inj he) (by omega)
    simp [hne]

/-- C6 witness: edits at 0 and 500; the timeout observed at 1400 fires no
run. -/
theorem debounce_contract_witness :
    (timerTimeout
      (setDirty (setDirty { contents := [], compileTime := none,
                            dirty := false, lastEditor := some 1,
                            deadline := none : ECState } 0) 500) 1400
      (fun _ => [4])).2 = none := by
  have h := debounce_contract
    { contents := [], compileTime := none, dirty := false,
      lastEditor := some 1, deadline := none : ECState }
    0 500 1400 (fun _ => [4]) (by omega)
  exact h.2.2.2

/-- C7: on a bound-to-unbound transition (current-editor switch to an
editor of another document or to none, or close of the bound editor), a set
dirty flag forces one synchronous run against the outgoing document's
contents with the flag cleared and the binding dropped, and a clear dirty
flag detaches without any run. -/
theorem editor_detach_runs_pending (s : ECState) (e : Nat)
    (oldC dc : ByteArr) (newEditor : Option (Nat × FilePath))
    (source : FilePath) (hbound : s.lastEditor = some e)
    (hunbind : ∀ a p, newEditor = some (a, p) → p ≠ source) :
    (s.dirty = true →
      onEditorChanged s oldC newEditor source =
        ({ s with dirty := false, lastEditor := none },
         some (RunReq.bytes oldC)))
    ∧ (s.dirty = false →
      onEditorChanged s oldC newEditor source =
        ({ s with lastEditor := none }, none))
    ∧ (s.dirty = true →
      onEditorAboutToClose s e dc =
        ({ s with dirty := false, lastEditor := none },
         some (RunReq.bytes dc)))
    ∧ (s.dirty = false →
      onEditorAboutToClose s e dc = ({ s with lastEditor := none }, none)) := by
  have hsome : s.lastEditor.isSome = true := by rw [hbound]; rfl
  refine ⟨?_, ?_, ?_, ?_⟩
  · intro hdirty
    unfold onEditorChanged
    cases hne : newEditor with
    | none => simp [hsome, hdirty]
    | some ed =>
      have hne2 : ed.2 ≠ source := hunbind ed.1 ed.2 (by rw [hne])
      simp [hsome, hdirty, hne2]
  · intro hdirty
    unfold onEditorChanged
    cases hne : newEditor with
    | none => simp [hsome, hdirty]
    | some ed =>
      have hne2 : ed.2 ≠ source := hunbind ed.1 ed.2 (by rw [hne])
      simp [hsome, hdirty, hne2]
  · intro hdirty
    unfold onEditorAboutToClose
    simp [hbound, hdirty]
  · intro hdirty
    unfold onEditorAboutToClose
    simp [hbound, hdirty]

/-- C7 witness: a dirty instance whose editor closes runs against the
closing document's contents. -/
theorem editor_detach_runs_pending_witness :
    onEditorAboutToClose { contents := [], compileTime := none,
                           dirty := true, lastEditor := some 4,
                           deadline := none : ECState }
      4 [8] =
      ({ contents := [], compileTime := none, dirty := false,
         lastEditor := none, deadline := none : ECState },
       some (RunReq.bytes [8])) := by
  have h := editor_detach_runs_pending
    { contents := [], compileTime := none, dirty := true,
      lastEditor := some 4, deadline := none : ECState }
    4 [0] [8] none "src" rfl (by intro a p hp; cases hp)
  exact h.2.2.1 rfl

/-- FilePath::lastModified on a filesystem snapshot: the modification time
when the file exists, an invalid datetime otherwise. -/
def lastModified (fs : FS) (p : FilePath) : Option Nat :=
  (fs p).map FSFile.mtime

/-- Minimum of two QDateTime values, an invalid one acting neutrally. -/
def qdtMin : Option Nat → Option Nat → Option Nat
  | none, b => b
  | some a, none => some a
  | some a, some b => some (min a b)

/-- Earliest modification time among the targets present on disk (invalid
when none exists). -/
def earliestMtime (fs : FS) (targets : List FilePath) : Option Nat :=
  targets.foldr (fun t acc => qdtMin (lastModified fs t) acc) none

/-- A target that forces the constructed instance dirty: missing from disk
or strictly older than the source. -/
def staleTarget (fs : FS) (sourceTime : Option Nat) (t : FilePath) : Bool :=
  match fs t with
  | none => true
  | some fi => qdtLT (some fi.mtime) sourceTime

/-- The state of ExtraCompilerPrivate right after the member initialisers
and the `contents.insert(target, QByteArray())` loop of the constructor. -/
def ctorInit (targets : List FilePath) : ECState :=
  { contents := targets.foldl (fun h t => hashInsert h t []) [],
    compileTime := none, dirty := false, lastEditor := none,
    deadline := none }

/-- One iteration of the constructor's target scan: a missing target marks
dirty; an existing one marks dirty when older than the source, lowers the
watermark to its modification time, and has its content loaded via
`setContent`. -/
def ctorStep (fs : FS) (sourceTime : Option Nat) (s : ECState)
    (target : FilePath) : ECState × List Event :=
  match fs target with
  | none => ({ s with dirty := true }, [])
  | some fi =>
    setContent
      { s with
        dirty := if qdtLT (some fi.mtime) sourceTime then true else s.dirty,
        compileTime :=
          match s.compileTime with
          | none => some fi.mtime
          | some c => if c > fi.mtime then some fi.mtime else some c }
      target fi.content

/-- The constructor's scan over all declared targets. -/
def ctorScan (fs : FS) (sourceTime : Option Nat) (s : ECState)
    (evs : List Event) : List FilePath → ECState × List Event
  | [] => (s, evs)
  | t :: rest =>
    ctorScan fs sourceTime (ctorStep fs sourceTime s t).1
      (evs ++ (ctorStep fs sourceTime s t).2) rest

/-- ExtraCompiler::ExtraCompiler: initialise the content map, scan the
declared targets, and when the scan ended dirty clear the flag and schedule
one deferred run against the source file on disk (the scheduled request is
the third component). -/
def construct (fs : FS) (source : FilePath) (targets : List FilePath) :
    ECState × List Event × Option RunReq :=
  let r := ctorScan fs (lastModified fs source) (ctorInit targets) [] targets
  if r.1.dirty then
    ({ r.1 with dirty := false }, r.2, some (RunReq.path source))
  else (r.1, r.2, none)

theorem hashKeys_hashInsert (h : FileNameToContentsHash) (k : FilePath)
    (v : ByteArr) :
    hashKeys (hashInsert h k v) =
      if hashContains h k then hashKeys h else hashKeys h ++ [k] := by
  unfold hashInsert
  by_cases hc : hashContains h k
  · simp [hc, hashKeys_hashUpdate]
  · simp [hc, hashKeys, List.map_append]

theorem insertAll_keys_mem (ts : List FilePath) (h : FileNameToContentsHash)
    (k : FilePath) :
    k ∈ hashKeys (ts.foldl (fun acc t => hashInsert acc t []) h) ↔
      k ∈ hashKeys h ∨ k ∈ ts := by
  induction ts generalizing h with
  | nil => simp
  | cons t rest ih =>
    rw [List.foldl_cons, ih]
    rw [hashKeys_hashInsert]
    by_cases hc : hashContains h t = true
    · have hm : t ∈ hashKeys h := (hashContains_iff_mem_keys h t).mp hc
      rw [if_pos hc, List.mem_cons]
      constructor
      · rintro (hk | hk)
        · exact Or.inl hk
        · exact Or.inr (Or.inr hk)
      · rintro (hk | hk | hk)
        · exact Or.inl hk
        · exact Or.inl (hk ▸ hm)
        · exact Or.inr hk
    · rw [if_neg hc, List.mem_append, List.mem_singleton, List.mem_cons]
      constructor
      · rintro ((hk | hk) | hk)
        · exact Or.inl hk
        · exact Or.inr (Or.inl hk)
        · exact Or.inr (Or.inr hk)
      · rintro (hk | hk | hk)
        · exact Or.inl (Or.inl hk)
        · exact Or.inl (Or.inr hk)
        · exact Or.inr hk

theorem insertAll_keys_nodup (ts : List FilePath) (h : FileNameToContentsHash)
    (hnd : (hashKeys h).Nodup) :
    (hashKeys (ts.foldl (fun acc t => hashInsert acc t []) h)).Nodup := by
  induction ts generalizing h with
  | nil => exact hnd
  | cons t rest ih =>
    rw [List.foldl_cons]
    refine ih _ ?_
    rw [hashKeys_hashInsert]
    by_cases hc : hashContains h t = true
    · rw [if_pos hc]
      exact hnd
    · have hm : t ∉ hashKeys h := fun hmem =>
        hc ((hashContains_iff_mem_keys h t).mpr hmem)
      rw [if_neg hc, List.nodup_append]
      refine ⟨hnd, List.nodup_singleton t, ?_⟩
      intro a ha hb
      rw [List.mem_singleton] at hb
      exact hm (hb ▸ ha)

theorem ctorStep_contents_keys (fs : FS) (st : Option Nat) (s : ECState)
    (u : FilePath) :
    hashKeys (ctorStep fs st s u).1.contents = hashKeys s.contents := by
  unfold ctorStep
  cases fs u with
  | none => rfl
  | some fi => rw [setContent_keys]

theorem ctorStep_lookup_ne (fs : FS) (st : Option Nat) (s : ECState)
    (u t : FilePath) (hne : t ≠ u) :
    hashLookup (ctorStep fs st s u).1.contents t =
      hashLookup s.contents t := by
  unfold ctorStep
  cases fs u with
  | none => rfl
  | some fi => rw [setContent_lookup_ne _ _ _ _ hne]

theorem ctorStep_lookup_self (fs : FS) (st : Option Nat) (s : ECState)
    (t : FilePath) (fi : FSFile) (hfs : fs t = some fi)
    (hc : hashContains s.contents t = true) :
    hashLookup (ctorStep fs st s t).1.contents t = some fi.content := by
  unfold ctorStep
  rw [hfs]
  obtain ⟨cur, hcur⟩ := (hashContains_iff_lookup s.contents t).mp hc
  exact setContent_lookup_self _ t fi.content cur hcur

theorem ctorScan_lookup (fs : FS) (st : Option Nat) (ts : List FilePath)
    (s : ECState) (evs : List Event) (t : FilePath) (fi : FSFile)
    (hfs : fs t = some fi) (hc : hashContains s.contents t = true) :
    (t ∈ ts →
      hashLookup (ctorScan fs st s evs ts).1.contents t = some fi.content)
    ∧ (t ∉ ts →
      hashLookup (ctorScan fs st s evs ts).1.contents t =
        hashLookup s.contents t) := by
  induction ts generalizing s evs with
  | nil =>
    refine ⟨fun hm => absurd hm (List.not_mem_nil t), fun _ => rfl⟩
  | cons u rest ih =>
    have hc2 : hashContains (ctorStep fs st s u).1.contents t = true := by
      rw [hashContains_iff_mem_keys, ctorStep_contents_keys,
        ← hashContains_iff_mem_keys]
      exact hc
    constructor
    · intro hm
      by_cases hr : t ∈ rest
      · rw [ctorScan]
        exact (ih _ _ hc2).1 hr
      · have ht : t = u := by
          rcases List.mem_cons.mp hm with he | hin
          · exact he
          · exact absurd hin hr
        subst ht
        rw [ctorScan, (ih _ _ hc2).2 hr,
          ctorStep_lookup_self fs st s t fi hfs hc]
    · intro hm
      have hne : t ≠ u := fun he => hm (he ▸ List.mem_cons_self u rest)
      have hr : t ∉ rest := fun hin => hm (List.mem_cons_of_mem u hin)
      rw [ctorScan, (ih _ _ hc2).2 hr, ctorStep_lookup_ne fs st s u t hne]

theorem ctorStep_dirty (fs : FS) (st : Option Nat) (s : ECState)
    (t : FilePath) :
    (ctorStep fs st s t).1.dirty = (s.dirty || staleTarget fs st t) := by
  unfold ctorStep staleTarget
  cases fs t with
  | none => simp
  | some fi =>
    rw [(setContent_fields _ t fi.content).2.1]
    cases hq : qdtLT (some fi.mtime) st <;> simp [hq]

theorem ctorScan_dirty (fs : FS) (st : Option Nat) (ts : List FilePath)
    (s : ECState) (evs : List Event) :
    (ctorScan fs st s evs ts).1.dirty =
      (s.dirty || ts.any (staleTarget fs st)) := by
  induction ts generalizing s evs with
  | nil => simp [ctorScan]
  | cons t rest ih =>
    rw [ctorScan, ih, ctorStep_dirty, List.any_cons, Bool.or_assoc]

theorem qdtMin_assoc (a b c : Option Nat) :
    qdtMin (qdtMin a b) c = qdtMin a (qdtMin b c) := by
  cases a <;> cases b <;> cases c <;> simp [qdtMin, min_assoc]

theorem ctorStep_compileTime (fs : FS) (st : Option Nat) (s : ECState)
    (t : FilePath) :
    (ctorStep fs st s t).1.compileTime =
      qdtMin s.compileTime (lastModified fs t) := by
  unfold ctorStep lastModified
  cases fs t with
  | none => cases s.compileTime <;> simp [qdtMin]
  | some fi =>
    rw [(setContent_fields _ t fi.content).1]
    cases hct : s.compileTime with
    | none => simp [qdtMin]
    | some c =>
      by_cases hlt : c > fi.mtime
      · simp [qdtMin, hlt, min_eq_right (Nat.le_of_lt hlt)]
      · have : min c fi.mtime = c := min_eq_left (Nat.le_of_not_lt hlt)
        simp [qdtMin, hlt, this]

theorem ctorScan_compileTime (fs : FS) (st : Option Nat) (ts : List FilePath)
    (s : ECState) (evs : List Event) :
    (ctorScan fs st s evs ts).1.compileTime =
      qdtMin s.compileTime (earliestMtime fs ts) := by
  induction ts generalizing s evs with
  | nil => cases h : s.compileTime <;> simp [ctorScan, earliestMtime, qdtMin, h]
  | cons t rest ih =>
    rw [ctorScan, ih, ctorStep_compileTime]
    show _ = qdtMin s.compileTime (earliestMtime fs (t :: rest))
    unfold earliestMtime
    rw [List.foldr_cons, qdtMin_assoc]

theorem staleTarget_iff (fs : FS) (st : Option Nat) (u : FilePath) :
    staleTarget fs st u = true ↔
      fs u = none ∨ qdtLT (lastModified fs u) st = true := by
  unfold staleTarget lastModified
  cases fs u with
  | none => simp
  | some fu => simp

theorem construct_contents (fs : FS) (source : FilePath)
    (targets : List FilePath) :
    (construct fs source targets).1.contents =
      (ctorScan fs (lastModified fs source) (ctorInit targets) []
        targets).1.contents := by
  unfold construct
  by_cases hd :
      (ctorScan fs (lastModified fs source) (ctorInit targets) []
        targets).1.dirty
  · simp [hd]
  · simp [hd]

/-- C3: construction loads the on-disk content of every existing target
into the cache; the scan marks the instance dirty exactly when some target
is missing or strictly older than the source; exactly one deferred run
against the on-disk source is scheduled when and only when the scan ended
dirty (and nothing else is ever scheduled); and the watermark ends as the
earliest modification time among the targets present on disk. -/
theorem construct_contract (fs : FS) (source : FilePath)
    (targets : List FilePath) :
    (∀ u fu, u ∈ targets → fs u = some fu →
      hashLookup (construct fs source targets).1.contents u =
        some fu.content)
    ∧ ((ctorScan fs (lastModified fs source) (ctorInit targets) []
          targets).1.dirty = true ↔
        ∃ u ∈ targets, fs u = none
          ∨ qdtLT (lastModified fs u) (lastModified fs source) = true)
    ∧ ((construct fs source targets).2.2 = some (RunReq.path source) ↔
        ∃ u ∈ targets, fs u = none
          ∨ qdtLT (lastModified fs u) (lastModified fs source) = true)
    ∧ ((construct fs source targets).2.2 = none
        ∨ (construct fs source targets).2.2 = some (RunReq.path source))
    ∧ (construct fs source targets).1.compileTime =
        earliestMtime fs targets := by
  have hdirty :
      (ctorScan fs (lastModified fs source) (ctorInit targets) []
        targets).1.dirty = targets.any (staleTarget fs (lastModified fs source)) := by
    rw [ctorScan_dirty]
    rfl
  have hcond :
      targets.any (staleTarget fs (lastModified fs source)) = true ↔
        ∃ u ∈ targets, fs u = none
          ∨ qdtLT (lastModified fs u) (lastModified fs source) = true := by
    rw [List.any_eq_true]
    constructor
    · rintro ⟨u, hu, hp⟩
      exact ⟨u, hu, (staleTarget_iff fs (lastModified fs source) u).mp hp⟩
    · rintro ⟨u, hu, hp⟩
      exact ⟨u, hu, (staleTarget_iff fs (lastModified fs source) u).mpr hp⟩
  refine ⟨?_, ?_, ?_, ?_, ?_⟩
  · intro u fu hu hfs
    rw [construct_contents]
    have hc : hashContains (ctorInit targets).contents u = true := by
      rw [hashContains_iff_mem_keys]
      exact (insertAll_keys_mem targets [] u).mpr (Or.inr hu)
    exact (ctorScan_lookup fs (lastModified fs source) targets
      (ctorInit targets) [] u fu hfs hc).1 hu
  · rw [hdirty]
    exact hcond
  · unfold construct
    by_cases hd :
        (ctorScan fs (lastModified fs source) (ctorInit targets) []
          targets).1.dirty
    · simp only [hd, if_true]
      rw [hdirty] at hd
      simpa using hcond.mp hd
    · simp only [hd, if_false]
      rw [hdirty] at hd
      constructor
      · intro he
        cases he
      · intro hex
        exact absurd (hcond.mpr hex) hd
  · unfold construct
    by_cases hd :
        (ctorScan fs (lastModified fs source) (ctorInit targets) []
          targets).1.dirty
    · simp [hd]
    · simp [hd]
  · have hct :
        (construct fs source targets).1.compileTime =
          (ctorScan fs (lastModified fs source) (ctorInit targets) []
            targets).1.compileTime := by
      unfold construct
      by_cases hd :
          (ctorScan fs (lastModified fs source) (ctorInit targets) []
            targets).1.dirty
      · simp [hd]
      · simp [hd]
    rw [hct, ctorScan_compileTime]
    rfl

/-- C3 witness: one present fresh target, one missing target; the run is
scheduled and the fresh target's content is cached. -/
theorem construct_contract_witness :
    hashLookup
      (construct
        (fun p => if p = "t" then some ⟨9, [5]⟩ else
                  if p = "src" then some ⟨4, [1]⟩ else none)
        "src" ["t", "u"]).1.contents "t" = some [5] := by
  have h := construct_contract
    (fun p => if p = "t" then some ⟨9, [5]⟩ else
              if p = "src" then some ⟨4, [1]⟩ else none)
    "src" ["t", "u"]
  exact h.1 "t" ⟨9, [5]⟩ (by decide) (by decide)

/-- The per-target body of the `forEachTarget` lambda in
ExtraCompiler::onTargetsBuilt: a target that exists with a stamp newer than
the source and newer than the watermark is adopted (content re-read,
watermark advanced to its stamp); any other target is left untouched. -/
def builtStep (fs : FS) (sourceTime : Option Nat) (s : ECState)
    (target : FilePath) : ECState × List Event :=
  match fs target with
  | none => (s, [])
  | some fi =>
    if qdtLT sourceTime (some fi.mtime) then
      if qdtLE (some fi.mtime) s.compileTime then (s, [])
      else setContent { s with compileTime := some fi.mtime } target fi.content
    else (s, [])

/-- The `forEachTarget` loop of ExtraCompiler::onTargetsBuilt. -/
def builtFold (fs : FS) (sourceTime : Option Nat) (s : ECState)
    (evs : List Event) : List FilePath → ECState × List Event
  | [] => (s, evs)
  | t :: rest =>
    builtFold fs sourceTime (builtStep fs sourceTime s t).1
      (evs ++ (builtStep fs sourceTime s t).2) rest

/-- ExtraCompiler::onTargetsBuilt: ignore foreign projects and in-progress
builds; return immediately when the watermark is valid and not older than
the source's current stamp; otherwise reconcile every declared target. -/
def onTargetsBuilt (sameProject building : Bool) (fs : FS)
    (source : FilePath) (s : ECState) : ECState × List Event :=
  if !sameProject || building then (s, [])
  else if s.compileTime.isSome
      && qdtLE (lastModified fs source) s.compileTime then (s, [])
  else builtFold fs (lastModified fs source) s [] (hashKeys s.contents)

theorem builtStep_some (fs : FS) (st : Option Nat) (s : ECState)
    (t : FilePath) (fi : FSFile) (hfs : fs t = some fi) :
    builtStep fs st s t =
      if qdtLT st (some fi.mtime) = true then
        if qdtLE (some fi.mtime) s.compileTime = true then (s, [])
        else setContent { s with compileTime := some fi.mtime } t fi.content
      else (s, []) := by
  unfold builtStep
  rw [hfs]

/-- C4: when the watermark is valid and at least the source's modification
time, build-completion reconciliation changes nothing at all; otherwise,
per target, a file whose stamp is newer than both the source stamp and the
current watermark has its on-disk content adopted into the cache with the
watermark advanced to that stamp, while a target whose stamp is not newer
than the watermark is left completely untouched. -/
theorem onTargetsBuilt_reconciliation (sameProject building : Bool)
    (fs : FS) (source t : FilePath) (s : ECState) (c : Nat) (fi : FSFile) :
    (s.compileTime = some c →
      qdtLE (lastModified fs source) (some c) = true →
      onTargetsBuilt sameProject building fs source s = (s, []))
    ∧ (fs t = some fi →
        qdtLT (lastModified fs source) (some fi.mtime) = true →
        qdtLE (some fi.mtime) s.compileTime = false →
        hashContains s.contents t = true →
        hashLookup (builtStep fs (lastModified fs source) s t).1.contents t
            = some fi.content
        ∧ (builtStep fs (lastModified fs source) s t).1.compileTime
            = some fi.mtime)
    ∧ (fs t = some fi → qdtLE (some fi.mtime) s.compileTime = true →
        builtStep fs (lastModified fs source) s t = (s, [])) := by
  refine ⟨?_, ?_, ?_⟩
  · intro hct hle
    unfold onTargetsBuilt
    by_cases hflag : (!sameProject || building) = true
    · rw [if_pos hflag]
    · rw [if_neg hflag, if_pos]
      rw [hct]
      simp [hle]
  · intro hfs hnew hnotle hc
    have hred : builtStep fs (lastModified fs source) s t =
        setContent { s with compileTime := some fi.mtime } t fi.content := by
      rw [builtStep_some fs (lastModified fs source) s t fi hfs,
        if_pos hnew, if_neg (by rw [hnotle]; exact Bool.false_ne_true)]
    constructor
    · rw [hred]
      obtain ⟨cur, hcur⟩ := (hashContains_iff_lookup s.contents t).mp hc
      exact setContent_lookup_self _ t fi.content cur hcur
    · rw [hred]
      exact (setContent_fields _ t fi.content).1
  · intro hfs hle
    rw [builtStep_some fs (lastModified fs source) s t fi hfs]
    by_cases hnew : qdtLT (lastModified fs source) (some fi.mtime) = true
    · rw [if_pos hnew, if_pos hle]
    · rw [if_neg hnew]

/-- C4 witness: a fresh watermark makes reconciliation a no-op on a
concrete instance. -/
theorem onTargetsBuilt_reconciliation_witness :
    onTargetsBuilt true false
      (fun p => if p = "src" then some ⟨3, [1]⟩ else none) "src"
      { contents := [("t", [2])], compileTime := some 5, dirty := false,
        lastEditor := none, deadline := none : ECState } =
      ({ contents := [("t", [2])], compileTime := some 5, dirty := false,
         lastEditor := none, deadline := none : ECState }, []) := by
  have h := onTargetsBuilt_reconciliation true false
    (fun p => if p = "src" then some ⟨3, [1]⟩ else none) "src" "t"
    { contents := [("t", [2])], compileTime := some 5, dirty := false,
      lastEditor := none, deadline := none : ECState } 5 ⟨3, [1]⟩
  exact h.1 rfl (by decide)

/-- Scheduling-side state of a ProcessExtraCompiler: the engine state plus
the tracked QFutureWatcher, identified by the run it watches (`none` when
no run is outstanding), and a counter supplying fresh run identities. -/
structure PECState where
  ec : ECState
  watcher : Option Nat
  nextRunId : Nat
deriving DecidableEq

/-- Control-thread events of a ProcessExtraCompiler: a trigger that starts
a run (ProcessExtraCompiler::runImpl) and the arrival of the asynchronous
completion of run `id` carrying its reported result. -/
inductive PECEv
  | trigger
  | finishedEv (id : Nat) (result : Option FileNameToContentsHash)
      (now : Nat)

/-- ProcessExtraCompiler::runImpl: discard (delete) any prior watcher and
install a fresh one for the newly started run; deleting the old watcher
disconnects its finished signal, so its completion will no longer be
adopted. -/
def runImpl (s : PECState) : PECState :=
  { s with watcher := some s.nextRunId, nextRunId := s.nextRunId + 1 }

/-- One control-thread step: a trigger replaces the watcher; a completion
is adopted through `cleanUp` only when it belongs to the currently tracked
run (the deleted watcher of a superseded run delivers nothing). -/
def pecStep (s : PECState) : PECEv → PECState × List Event
  | PECEv.trigger => (runImpl s, [])
  | PECEv.finishedEv id result now =>
    if s.watcher = some id then
      (let r := cleanUp s.ec result now
       { s with ec := r.1, watcher := none }, (cleanUp s.ec result now).2)
    else (s, [])

/-- Actions taken by ProcessExtraCompiler::~ProcessExtraCompiler. -/
structure DestructOutcome where
  canceled : Bool
  waitedForFinish : Bool
deriving DecidableEq

/-- The destructor: with no watcher it does nothing; otherwise it cancels
the outstanding run and synchronously waits for it to finish. -/
def pecDestruct (s : PECState) : DestructOutcome :=
  if s.watcher.isSome then { canceled := true, waitedForFinish := true }
  else { canceled := false, waitedForFinish := false }

theorem pecStep_trigger (s : PECState) :
    pecStep s PECEv.trigger = (runImpl s, []) := rfl

theorem pecStep_finished (s : PECState) (id : Nat)
    (result : Option FileNameToContentsHash) (now : Nat) :
    pecStep s (PECEv.finishedEv id result now) =
      if s.watcher = some id then
        ({ s with ec := (cleanUp s.ec result now).1, watcher := none },
         (cleanUp s.ec result now).2)
      else (s, []) := rfl

/-- C1: the watcher tracks at most one run; a trigger installs the new
run's watcher in place of any prior one; the completion of a run that is
no longer tracked changes nothing (its result never overwrites newer
content), in particular after two triggers the first run's completion is
dropped while the instance keeps only the newest watcher; and destruction
cancels and synchronously waits exactly when a run is outstanding. -/
theorem pec_single_outstanding_run (s : PECState) (id now : Nat)
    (result : Option FileNameToContentsHash)
    (hsup : s.watcher ≠ some id) :
    (runImpl s).watcher = some s.nextRunId
    ∧ pecStep s (PECEv.finishedEv id result now) = (s, [])
    ∧ (pecStep (pecStep (pecStep s PECEv.trigger).1 PECEv.trigger).1
         (PECEv.finishedEv s.nextRunId result now)
       = ((pecStep (pecStep s PECEv.trigger).1 PECEv.trigger).1, []))
    ∧ (s.watcher.isSome = true →
        pecDestruct s = { canceled := true, waitedForFinish := true })
    ∧ (s.watcher = none →
        pecDestruct s = { canceled := false, waitedForFinish := false }) := by
  refine ⟨rfl, ?_, ?_, ?_, ?_⟩
  · rw [pecStep_finished, if_neg hsup]
  · rw [pecStep_trigger, pecStep_trigger, pecStep_finished, if_neg]
    intro he
    have h1 : (runImpl (runImpl s)).watcher = some (s.nextRunId + 1) := rfl
    rw [h1] at he
    have : s.nextRunId + 1 = s.nextRunId := Option.some.inj he
    omega
  · intro hs
    unfold pecDestruct
    rw [if_pos hs]
  · intro hs
    unfold pecDestruct
    rw [if_neg (by rw [hs]; exact Bool.false_ne_true)]

/-- C1 witness: with one outstanding watcher (id 0) a completion for a
foreign id (7) is dropped, and destruction cancels and waits. -/
theorem pec_single_outstanding_run_witness :
    pecDestruct { ec := { contents := [("t", [1])], compileTime := none,
                          dirty := false, lastEditor := none,
                          deadline := none : ECState },
                  watcher := some 0, nextRunId := 1 : PECState } =
      { canceled := true, waitedForFinish := true } := by
  have h := pec_single_outstanding_run
    { ec := { contents := [("t", [1])], compileTime := none,
              dirty := false, lastEditor := none,
              deadline := none : ECState },
      watcher := some 0, nextRunId := 1 : PECState }
    7 3 (some [("t", [9])]) (by decide)
  exact h.2.2.2.1 rfl

theorem builtStep_none (fs : FS) (st : Option Nat) (s : ECState)
    (t : FilePath) (hfs : fs t = none) : builtStep fs st s t = (s, []) := by
  unfold builtStep
  rw [hfs]

theorem builtStep_keys (fs : FS) (st : Option Nat) (s : ECState)
    (t : FilePath) :
    hashKeys (builtStep fs st s t).1.contents = hashKeys s.contents := by
  cases hfs : fs t with
  | none => rw [builtStep_none fs st s t hfs]
  | some fi =>
    rw [builtStep_some fs st s t fi hfs]
    by_cases h1 : qdtLT st (some fi.mtime) = true
    · by_cases h2 : qdtLE (some fi.mtime) s.compileTime = true
      · rw [if_pos h1, if_pos h2]
      · rw [if_pos h1, if_neg h2, setContent_keys]
    · rw [if_neg h1]

theorem builtFold_keys (fs : FS) (st : Option Nat) (ts : List FilePath)
    (s : ECState) (evs : List Event) :
    hashKeys (builtFold fs st s evs ts).1.contents = hashKeys s.contents := by
  induction ts generalizing s evs with
  | nil => rfl
  | cons t rest ih =>
    rw [builtFold, ih, builtStep_keys]

theorem onTargetsBuilt_keys (sameProject building : Bool) (fs : FS)
    (source : FilePath) (s : ECState) :
    hashKeys (onTargetsBuilt sameProject building fs source s).1.contents =
      hashKeys s.contents := by
  unfold onTargetsBuilt
  by_cases h1 : (!sameProject || building) = true
  · rw [if_pos h1]
  · rw [if_neg h1]
    by_cases h2 : (s.compileTime.isSome
        && qdtLE (lastModified fs source) s.compileTime) = true
    · rw [if_pos h2]
    · rw [if_neg h2, builtFold_keys]

theorem cleanUp_keys (s : ECState) (result : Option FileNameToContentsHash)
    (now : Nat) :
    hashKeys (cleanUp s result now).1.contents = hashKeys s.contents := by
  cases result with
  | none => rfl
  | some data =>
    by_cases hd : data.isEmpty
    · simp [cleanUp, hd]
    · simp [cleanUp, hd, setContentAll_keys]

theorem onEditorChanged_contents (s : ECState) (old : ByteArr)
    (newEditor : Option (Nat × FilePath)) (source : FilePath) :
    (onEditorChanged s old newEditor source).1.contents = s.contents := by
  unfold onEditorChanged
  cases newEditor with
  | none =>
    by_cases h1 : s.lastEditor.isSome <;> by_cases h2 : s.dirty <;>
      simp [h1, h2]
  | some ed =>
    by_cases h1 : s.lastEditor.isSome <;> by_cases h2 : s.dirty <;>
      by_cases h3 : ed.2 = source <;> simp [h1, h2, h3]

theorem onEditorAboutToClose_contents (s : ECState) (editor : Nat)
    (docContents : ByteArr) :
    (onEditorAboutToClose s editor docContents).1.contents = s.contents := by
  unfold onEditorAboutToClose
  by_cases h1 : s.lastEditor ≠ some editor <;> by_cases h2 : s.dirty <;>
    simp [h1, h2]

theorem timerTimeout_contents (s : ECState) (t : Nat) (doc : Nat → ByteArr) :
    (timerTimeout s t doc).1.contents = s.contents := by
  unfold timerTimeout
  by_cases h1 : s.deadline = some t <;>
    by_cases h2 : (s.dirty && s.lastEditor.isSome) = true <;> simp [h1, h2]

theorem ctorScan_keys (fs : FS) (st : Option Nat) (ts : List FilePath)
    (s : ECState) (evs : List Event) :
    hashKeys (ctorScan fs st s evs ts).1.contents = hashKeys s.contents := by
  induction ts generalizing s evs with
  | nil => rfl
  | cons t rest ih =>
    rw [ctorScan, ih, ctorStep_contents_keys]

theorem hashLookup_eq_none_of_not_contains (h : FileNameToContentsHash)
    (k : FilePath) (hc : hashContains h k = false) :
    hashLookup h k = none := by
  cases hl : hashLookup h k with
  | none => rfl
  | some v =>
    have ht := (hashContains_iff_lookup h k).mpr ⟨v, hl⟩
    rw [ht] at hc
    cases hc

/-- Control-thread operations that can reach an ExtraCompiler instance
after construction (the signal handlers and the result-adoption path). -/
inductive Op
  | setC (file : FilePath) (bytes : ByteArr)
  | runFinished (result : Option FileNameToContentsHash) (now : Nat)
  | targetsBuilt (sameProject building : Bool) (fs : FS)
  | editorChange (oldDocContents : ByteArr)
      (newEditor : Option (Nat × FilePath))
  | editorClose (editor : Nat) (docContents : ByteArr)
  | docChanged (t : Nat)
  | timerFired (t : Nat) (doc : Nat → ByteArr)

/-- Interpret one operation on the engine state. -/
def ecStep (source : FilePath) (s : ECState) : Op → ECState × List Event
  | Op.setC f b => setContent s f b
  | Op.runFinished r now => cleanUp s r now
  | Op.targetsBuilt sp b fs => onTargetsBuilt sp b fs source s
  | Op.editorChange old ne => ((onEditorChanged s old ne source).1, [])
  | Op.editorClose e dc => ((onEditorAboutToClose s e dc).1, [])
  | Op.docChanged t => (setDirty s t, [])
  | Op.timerFired t doc => ((timerTimeout s t doc).1, [])

/-- Interpret a sequence of operations. -/
def ecRun (source : FilePath) (s : ECState) : List Op → ECState
  | [] => s
  | op :: rest => ecRun source (ecStep source s op).1 rest

theorem ecStep_keys (source : FilePath) (s : ECState) (op : Op) :
    hashKeys (ecStep source s op).1.contents = hashKeys s.contents := by
  cases op with
  | setC f b => exact setContent_keys s f b
  | runFinished r now => exact cleanUp_keys s r now
  | targetsBuilt sp b fs => exact onTargetsBuilt_keys sp b fs source s
  | editorChange old ne =>
    show hashKeys (onEditorChanged s old ne source).1.contents = _
    rw [onEditorChanged_contents]
  | editorClose e dc =>
    show hashKeys (onEditorAboutToClose s e dc).1.contents = _
    rw [onEditorAboutToClose_contents]
  | docChanged t => rfl
  | timerFired t doc =>
    show hashKeys (timerTimeout s t doc).1.contents = _
    rw [timerTimeout_contents]

theorem ecRun_keys (source : FilePath) (s : ECState) (ops : List Op) :
    hashKeys (ecRun source s ops).contents = hashKeys s.contents := by
  induction ops generalizing s with
  | nil => rfl
  | cons op rest ih =>
    rw [ecRun, ih, ecStep_keys]

/-- C9: under any sequence of post-construction operations the key set of
the content map stays exactly the target set fixed at construction, with
one entry per declared target; `setContent` with a path outside the
declared target set leaves the state unchanged and emits nothing. -/
theorem target_set_invariant (fs : FS) (source : FilePath)
    (targets : List FilePath) (ops : List Op) (f : FilePath) (b : ByteArr)
    (hout : f ∉ targets) :
    (∀ g, g ∈ hashKeys
        (ecRun source (construct fs source targets).1 ops).contents ↔
      g ∈ targets)
    ∧ (hashKeys
        (ecRun source (construct fs source targets).1 ops).contents).Nodup
    ∧ setContent (ecRun source (construct fs source targets).1 ops) f b
        = (ecRun source (construct fs source targets).1 ops, []) := by
  have hkeys :
      hashKeys (ecRun source (construct fs source targets).1 ops).contents =
        hashKeys (ctorInit targets).contents := by
    rw [ecRun_keys]
    have h1 : (construct fs source targets).1.contents =
        (ctorScan fs (lastModified fs source) (ctorInit targets) []
          targets).1.contents := construct_contents fs source targets
    rw [h1, ctorScan_keys]
  have hmem : ∀ g, g ∈ hashKeys
      (ecRun source (construct fs source targets).1 ops).contents ↔
      g ∈ targets := by
    intro g
    rw [hkeys]
    show g ∈ hashKeys (targets.foldl (fun h t => hashInsert h t []) []) ↔ _
    rw [insertAll_keys_mem]
    constructor
    · rintro (hk | hk)
      · cases hk
      · exact hk
    · exact Or.inr
  refine ⟨hmem, ?_, ?_⟩
  · rw [hkeys]
    exact insertAll_keys_nodup targets [] List.nodup_nil
  · apply setContent_undeclared
    apply hashLookup_eq_none_of_not_contains
    cases hc : hashContains
        (ecRun source (construct fs source targets).1 ops).contents f with
    | false => rfl
    | true =>
      have hm := (hashContains_iff_mem_keys _ f).mp hc
      exact absurd ((hmem f).mp hm) hout

/-- C9 witness: after a mixed operation sequence on a one-target instance
an undeclared path is ignored by setContent. -/
theorem target_set_invariant_witness :
    setContent
      (ecRun "src"
        (construct (fun p => if p = "t" then some ⟨1, [2]⟩ else none)
          "src" ["t"]).1
        [Op.setC "t" [3], Op.runFinished (some [("t", [4])]) 9,
         Op.docChanged 0])
      "other" [5]
    = (ecRun "src"
        (construct (fun p => if p = "t" then some ⟨1, [2]⟩ else none)
          "src" ["t"]).1
        [Op.setC "t" [3], Op.runFinished (some [("t", [4])]) 9,
         Op.docChanged 0], []) := by
  have h := target_set_invariant
    (fun p => if p = "t" then some ⟨1, [2]⟩ else none) "src" ["t"]
    [Op.setC "t" [3], Op.runFinished (some [("t", [4])]) 9, Op.docChanged 0]
    "other" [5] (by decide)
  exact h.2.2

end ProjectExplorer
